import Mathlib

/-!
Verification of the poliberg ingestion, spike-detection and ranking engine
(`backend/services/ingestion.py`, `backend/models/__init__.py`,
`backend/routes.py`) against its specification.

Numbers that the Python code handles as floats are modelled as rationals
(`ℚ`); timestamps are modelled as naturals (`Nat`), ordered as the
corresponding `datetime` values are.  Python exceptions that are caught by
an enclosing handler are modelled with `Option`: `none` means the handler
fired.
-/

namespace Poliberg

/-- `IngestionService.VOLUME_SPIKE_THRESHOLD = 1.3`. -/
def VOLUME_SPIKE_THRESHOLD : ℚ := 13/10

/-- `IngestionService.SPIKE_CHANGE_THRESHOLD = 0.05`. -/
def SPIKE_CHANGE_THRESHOLD : ℚ := 1/20

/-- `IngestionService.MAX_CHANGES = 100`. -/
def MAX_CHANGES : Nat := 100

/-- `IngestionService.calculate_volume_spike`: returns the spike ratio when
`volume24hr / (volume1wk / 7)` reaches the threshold, `none` otherwise, and
`none` whenever `volume1wk ≤ 0` or the derived average is non-positive. -/
def calculate_volume_spike (volume24hr volume1wk : ℚ) : Option ℚ :=
  if volume1wk ≤ 0 then none
  else
    let avg_daily_volume := volume1wk / 7
    if avg_daily_volume ≤ 0 then none
    else
      let ratio := volume24hr / avg_daily_volume
      if ratio ≥ VOLUME_SPIKE_THRESHOLD then some ratio else none

/-- The four `changeType` literals of `EventChange`. -/
inductive ChangeType where
  | new_spike
  | spike_increased
  | spike_decreased
  | spike_removed
deriving DecidableEq, Repr

/-- The change classification of `IngestionService.detect_changes` for one
entity: given the previous cycle's spike ratio (`old_spike`) and the current
one (`new_spike`), decide which `changeType`, if any, is emitted.  The
branch structure and the strict comparisons mirror the Python `if` chain. -/
def classifyChange (old_spike new_spike : Option ℚ) : Option ChangeType :=
  match old_spike, new_spike with
  | none, some _ => some ChangeType.new_spike
  | some o, some n =>
      if n > o * (1 + SPIKE_CHANGE_THRESHOLD) then some ChangeType.spike_increased
      else if n < o * (1 - SPIKE_CHANGE_THRESHOLD) then some ChangeType.spike_decreased
      else none
  | some _, none => some ChangeType.spike_removed
  | none, none => none

/-- C3: the spike predicate is absent for non-positive weekly volume, and
otherwise returns the ratio exactly when it reaches the 1.3 threshold. -/
theorem calculate_volume_spike_spec (volume24hr volume1wk : ℚ) :
    (volume1wk ≤ 0 → calculate_volume_spike volume24hr volume1wk = none) ∧
    (0 < volume1wk →
      calculate_volume_spike volume24hr volume1wk =
        (if volume24hr / (volume1wk / 7) ≥ VOLUME_SPIKE_THRESHOLD
          then some (volume24hr / (volume1wk / 7)) else none)) := by
  constructor
  · intro h
    simp [calculate_volume_spike, h]
  · intro h
    have h7 : ¬ volume1wk / 7 ≤ 0 := by
      push_neg
      positivity
    have hle : ¬ volume1wk ≤ 0 := not_le.mpr h
    simp only [calculate_volume_spike, hle, if_false, h7]

/-- Witness for C3: the spec's concrete examples.  `volume24hr = 150,
volume1wk = 700` gives a spike with ratio `1.5`; `volume24hr = 100,
volume1wk = 700` gives no spike. -/
theorem calculate_volume_spike_spec_witness :
    calculate_volume_spike 150 700 = some (3/2) ∧
    calculate_volume_spike 100 700 = none := by
  have h1 := (calculate_volume_spike_spec 150 700).2 (by norm_num)
  have h2 := (calculate_volume_spike_spec 100 700).2 (by norm_num)
  rw [h1, h2]
  norm_num [VOLUME_SPIKE_THRESHOLD]

/-- Counterexample to C2 as stated: at the exact boundary
`new = old × 1.05` the code's strict `>` comparison emits no event, while
the claim requires `spike_increased`. -/
theorem classifyChange_boundary_counterexample :
    (21/10 : ℚ) = 2 * (1 + SPIKE_CHANGE_THRESHOLD) ∧
    classifyChange (some 2) (some (21/10)) = none := by
  constructor
  · norm_num [SPIKE_CHANGE_THRESHOLD]
  · norm_num [classifyChange, SPIKE_CHANGE_THRESHOLD]

/-- C2 (amended): for spike ratios present in both cycles (previous ratio at
or above the spike threshold, as every stored ratio is), `spike_increased`
is emitted exactly when `new > old × 1.05`, `spike_decreased` exactly when
`new < old × 0.95`, and no event exactly when
`old × 0.95 ≤ new ≤ old × 1.05` — both boundaries emit nothing. -/
theorem classifyChange_spec (o n : ℚ) (ho : VOLUME_SPIKE_THRESHOLD ≤ o) :
    (classifyChange (some o) (some n) = some ChangeType.spike_increased ↔
      n > o * (1 + SPIKE_CHANGE_THRESHOLD)) ∧
    (classifyChange (some o) (some n) = some ChangeType.spike_decreased ↔
      n < o * (1 - SPIKE_CHANGE_THRESHOLD)) ∧
    (classifyChange (some o) (some n) = none ↔
      (o * (1 - SPIKE_CHANGE_THRESHOLD) ≤ n ∧ n ≤ o * (1 + SPIKE_CHANGE_THRESHOLD))) := by
  have hpos : (0:ℚ) < o := lt_of_lt_of_le (by norm_num [VOLUME_SPIKE_THRESHOLD]) ho
  have hmono : o * (1 - SPIKE_CHANGE_THRESHOLD) < o * (1 + SPIKE_CHANGE_THRESHOLD) := by
    have : (1 - SPIKE_CHANGE_THRESHOLD : ℚ) < 1 + SPIKE_CHANGE_THRESHOLD := by
      norm_num [SPIKE_CHANGE_THRESHOLD]
    exact mul_lt_mul_of_pos_left this hpos
  simp only [classifyChange]
  split_ifs with h1 h2
  · refine ⟨by simp [h1], ?_, by simp; intro hl; linarith⟩
    simp only [Option.some.injEq]
    constructor
    · intro hc
      exact absurd hc (by simp)
    · intro hlt
      linarith
  · refine ⟨?_, by simp [h2], by simp; intro hl; linarith⟩
    simp only [Option.some.injEq]
    constructor
    · intro hc
      exact absurd hc (by simp)
    · intro hgt
      exact absurd hgt h1
  · refine ⟨by simpa using h1, by simpa using h2, ?_⟩
    simp only [true_iff]
    push_neg at h1 h2
    exact ⟨h2, h1⟩

/-- Witness for C2's amended theorem: with previous ratio `2`, a current
ratio of `2.2` is classified `spike_increased`, `1.8` is classified
`spike_decreased`, and the boundary `2.1` is classified as no event. -/
theorem classifyChange_spec_witness :
    (22/10 : ℚ) > 2 * (1 + SPIKE_CHANGE_THRESHOLD) ∧
    classifyChange (some 2) (some (22/10)) = some ChangeType.spike_increased := by
  have h := (classifyChange_spec 2 (22/10) (by norm_num [VOLUME_SPIKE_THRESHOLD])).1
  constructor
  · norm_num [SPIKE_CHANGE_THRESHOLD]
  · exact h.mpr (by norm_num [SPIKE_CHANGE_THRESHOLD])

/-! ### Price-list parsing (`IngestionService.process_market`)

The `outcomePrices` field arrives either as a string or as an already
parsed list.  The code first tries `json.loads`, then falls back to
comma-split-and-trim with `float()` on each token; the whole record body
runs under a `try/except` that turns any exception into a skipped record.

`json.loads` and `float` are Python library functions; we model the
fragment of their input language that price data can take: decimal
numbers (optionally signed, optional fractional part, no exponents,
`inf`/`nan` and underscores excluded) and flat JSON arrays whose elements
are decimal numbers or quoted strings without escapes, inner quotes or
commas. -/

/-- Leading and trailing whitespace removal, as `str.strip()` /
`String.trim` do. -/
def trimChars (cs : List Char) : List Char :=
  ((cs.dropWhile Char.isWhitespace).reverse.dropWhile Char.isWhitespace).reverse

def splitOnCommaAux : List Char → List Char → List (List Char)
  | [], acc => [acc.reverse]
  | c :: cs, acc =>
      if c == ',' then acc.reverse :: splitOnCommaAux cs []
      else splitOnCommaAux cs (c :: acc)

/-- `str.split(",")`: split into (possibly empty) chunks at every comma. -/
def splitOnComma (cs : List Char) : List (List Char) :=
  splitOnCommaAux cs []

/-- Numeric value of a digit string, most significant digit first. -/
def digitsToNat (cs : List Char) : Nat :=
  cs.foldl (fun n c => 10 * n + (c.toNat - 48)) 0

/-- Value of a fractional digit string: `fracValue "25" = 25/100`. -/
def fracValue (cs : List Char) : ℚ :=
  (digitsToNat cs : ℚ) / (10 ^ cs.length)

/-- Unsigned decimal accepted by Python `float()`: `"12"`, `"12.5"`,
`"12."`, `".5"` (exponents excluded from the modelled fragment). -/
def parsePyUnsigned (cs : List Char) : Option ℚ :=
  let intPart := cs.takeWhile Char.isDigit
  let rest := cs.dropWhile Char.isDigit
  match rest with
  | [] => if intPart.isEmpty then none else some (digitsToNat intPart)
  | c :: fs =>
      if c == '.' && fs.all Char.isDigit && !(intPart.isEmpty && fs.isEmpty) then
        some ((digitsToNat intPart : ℚ) + fracValue fs)
      else none

/-- Modelled from the Python builtin `float(s)` on strings: strip
whitespace, optional sign, unsigned decimal; `none` models the
`ValueError` it raises otherwise. -/
def pyFloat (cs0 : List Char) : Option ℚ :=
  match trimChars cs0 with
  | [] => none
  | c :: rest =>
      if c == '+' then parsePyUnsigned rest
      else if c == '-' then (parsePyUnsigned rest).map (fun q => -q)
      else parsePyUnsigned (c :: rest)

/-- Unsigned JSON number (no leading zeros, mandatory integer part,
fractional digits after a dot; exponents excluded from the fragment). -/
def parseJsonUnsigned (cs : List Char) : Option ℚ :=
  let intPart := cs.takeWhile Char.isDigit
  let rest := cs.dropWhile Char.isDigit
  if intPart.isEmpty then none
  else if 1 < intPart.length ∧ intPart.head? = some '0' then none
  else
    match rest with
    | [] => some (digitsToNat intPart)
    | c :: fs =>
        if c == '.' && !fs.isEmpty && fs.all Char.isDigit then
          some ((digitsToNat intPart : ℚ) + fracValue fs)
        else none

/-- JSON number: optional leading minus then unsigned number. -/
def parseJsonNumber (cs : List Char) : Option ℚ :=
  match cs with
  | [] => none
  | c :: rest =>
      if c == '-' then (parseJsonUnsigned rest).map (fun q => -q)
      else parseJsonUnsigned (c :: rest)

/-- An element of a parsed JSON price array: a number or a string (the
feed encodes prices as quoted decimal strings). -/
inductive JsonElem where
  | num (q : ℚ)
  | str (s : List Char)
deriving DecidableEq, Repr

/-- A parsed JSON value in the modelled fragment: a number or a flat
array. -/
inductive JsonVal where
  | num (q : ℚ)
  | arr (elems : List JsonElem)
deriving DecidableEq, Repr

def quoteChar : Char := Char.ofNat 34

/-- One trimmed array element: a quoted string (no inner quotes) or a
JSON number. -/
def parseJsonElem (cs0 : List Char) : Option JsonElem :=
  match trimChars cs0 with
  | [] => none
  | c :: rest =>
      if c == quoteChar then
        match rest.reverse with
        | [] => none
        | d :: revContent =>
            if d == quoteChar && revContent.all (fun x => x != quoteChar) then
              some (JsonElem.str revContent.reverse)
            else none
      else (parseJsonNumber (c :: rest)).map JsonElem.num

/-- Modelled from the Python builtin `json.loads` on the fragment price
strings take: a bare number, or a bracketed flat array of elements split
at commas; `none` models `json.JSONDecodeError`. -/
def jsonLoads (cs0 : List Char) : Option JsonVal :=
  match trimChars cs0 with
  | [] => none
  | c :: rest =>
      if c == '[' then
        match rest.reverse with
        | [] => none
        | d :: revInner =>
            if d == ']' then
              let inner := revInner.reverse
              if (trimChars inner).isEmpty then some (JsonVal.arr [])
              else ((splitOnComma inner).mapM parseJsonElem).map JsonVal.arr
            else none
      else (parseJsonNumber (c :: rest)).map JsonVal.num

/-- The fallback `[float(p.strip()) for p in s.split(",") if p.strip()]`;
`none` models a `ValueError` escaping the comprehension. -/
def commaParse (cs : List Char) : Option (List ℚ) :=
  (((splitOnComma cs).map trimChars).filter (fun t => !t.isEmpty)).mapM pyFloat

/-- The `outcomePrices` field of a raw record: a string, or an already
decoded list (the `isinstance(outcome_prices, str)` branch). -/
inductive OutcomePrices where
  | str (s : List Char)
  | arr (elems : List JsonElem)
deriving DecidableEq, Repr

/-- Result of the two-stage parse of `outcomePrices`: the Python variable
`prices` ends up a list, a bare number, or the parse raised (`fail`). -/
inductive ParsedPrices where
  | list (elems : List JsonElem)
  | scalar (q : ℚ)
  | fail
deriving DecidableEq, Repr

/-- The two-stage parse in `process_market`: `json.loads` first, comma
fallback on `JSONDecodeError`; a non-string field is used as-is. -/
def parsePricesField : OutcomePrices → ParsedPrices
  | OutcomePrices.arr es => ParsedPrices.list es
  | OutcomePrices.str s =>
      match jsonLoads s with
      | some (JsonVal.arr es) => ParsedPrices.list es
      | some (JsonVal.num q) => ParsedPrices.scalar q
      | none =>
          match commaParse s with
          | some ps => ParsedPrices.list (ps.map JsonElem.num)
          | none => ParsedPrices.fail

/-- `probability = float(prices[0]) if prices else 0.5`, under the outer
`try/except`: an empty (falsy) `prices` defaults to `0.5`; a leading
string element goes through `float()`; a truthy non-list raises
(`none`). -/
def probabilityOf : ParsedPrices → Option ℚ
  | ParsedPrices.list [] => some (1/2)
  | ParsedPrices.list (JsonElem.num q :: _) => some q
  | ParsedPrices.list (JsonElem.str s :: _) => pyFloat s
  | ParsedPrices.scalar q => if q = 0 then some (1/2) else none
  | ParsedPrices.fail => none

/-- The canonical Market entity (`PolymarketEvent`), restricted to the
fields the engine reads or writes. -/
structure Market where
  id : String
  title : String
  description : String
  probability : ℚ
  volume24hr : ℚ
  volume1wk : ℚ
  volume1mo : ℚ
  volume1yr : ℚ
  active : Bool
  closed : Bool
  archived : Bool
  liquidityNum : ℚ
  slug : String
  detectedAt : Nat
  locked : Bool
  volumeSpike : Option ℚ
deriving DecidableEq, Repr

/-- A raw feed record, restricted to the keys `process_market` reads. -/
structure RawMarket where
  id : String
  question : String
  description : String
  outcomePrices : OutcomePrices
  volume24hr : ℚ
  volume1wk : ℚ
  volume1mo : ℚ
  volume1yr : ℚ
  active : Bool
  closed : Bool
  archived : Bool
  liquidityNum : ℚ
  slug : String
deriving DecidableEq, Repr

/-- `IngestionService.process_market`: compute the spike ratio, resolve
`probability` from the price field, build the entity.  `none` models the
outer `except` (skipped record), which also fires when pydantic rejects a
probability outside `[0,1]`.  `now` is the `detectedAt` default
(`datetime.now`). -/
def processMarket (now : Nat) (raw : RawMarket) : Option Market :=
  let volume_spike := calculate_volume_spike raw.volume24hr raw.volume1wk
  match probabilityOf (parsePricesField raw.outcomePrices) with
  | none => none
  | some prob =>
      if 0 ≤ prob ∧ prob ≤ 1 then
        some { id := raw.id, title := raw.question, description := raw.description,
               probability := prob, volume24hr := raw.volume24hr, volume1wk := raw.volume1wk,
               volume1mo := raw.volume1mo, volume1yr := raw.volume1yr, active := raw.active,
               closed := raw.closed, archived := raw.archived, liquidityNum := raw.liquidityNum,
               slug := raw.slug, detectedAt := now, locked := false, volumeSpike := volume_spike }
      else none

/-! ### Change detection (`IngestionService.detect_changes`) -/

/-- `self.previous_spikes`: entity id → spike ratio of the last cycle. -/
abbrev SpikeMap := List (String × ℚ)

/-- Dictionary lookup (`self.previous_spikes.get(event_id)`). -/
def smLookup (m : SpikeMap) (k : String) : Option ℚ :=
  List.lookup k m

/-- `del previous_spikes[k]` (no-op when the key is absent). -/
def smErase (m : SpikeMap) (k : String) : SpikeMap :=
  m.filter (fun p => p.1 != k)

/-- `previous_spikes[k] = v`. -/
def smInsert (m : SpikeMap) (k : String) (v : ℚ) : SpikeMap :=
  (k, v) :: smErase m k

/-- `EventChange`: immutable record of one detected transition. -/
structure EventChange where
  eventId : String
  eventTitle : String
  changeType : ChangeType
  timestamp : Nat
  oldSpikeRatio : Option ℚ
  newSpikeRatio : Option ℚ
  volume24hr : ℚ
  probability : ℚ
deriving DecidableEq, Repr

/-- One iteration of the `detect_changes` loop body for event `e`:
classify against the previous-spike map, build the change record, bump
`detectedAt` for `new_spike`/`spike_increased`, update the map.  Returns
(emitted change, updated market, updated previous-spike map). -/
def detectStep (now : Nat) (prev : SpikeMap) (e : Market) :
    Option EventChange × Market × SpikeMap :=
  let old_spike := smLookup prev e.id
  let c := classifyChange old_spike e.volumeSpike
  let chg : Option EventChange := c.map (fun t =>
    { eventId := e.id, eventTitle := e.title, changeType := t, timestamp := now,
      oldSpikeRatio := old_spike, newSpikeRatio := e.volumeSpike,
      volume24hr := e.volume24hr, probability := e.probability })
  let e' := if c = some ChangeType.new_spike ∨ c = some ChangeType.spike_increased then
      { e with detectedAt := now } else e
  let prev' := match e.volumeSpike with
    | some r => smInsert prev e.id r
    | none => smErase prev e.id
  (chg, e', prev')

/-- `detect_changes` over a whole batch, threading the previous-spike map
through the iterations in batch order.  Returns (changes in emission
order, updated markets in batch order, final previous-spike map). -/
def detectChanges (now : Nat) : SpikeMap → List Market → List EventChange × List Market × SpikeMap
  | prev, [] => ([], [], prev)
  | prev, e :: rest =>
      let r := detectStep now prev e
      let t := detectChanges now r.2.2 rest
      (r.1.toList ++ t.1, r.2.1 :: t.2.1, t.2.2)

/-- Appending to `self.changes`, a `deque(maxlen=MAX_CHANGES)`: the new
element goes to the right and the leftmost elements are dropped until the
length is back within the bound. -/
def appendChange (log : List EventChange) (c : EventChange) : List EventChange :=
  let l := log ++ [c]
  l.drop (l.length - MAX_CHANGES)

/-- C5: `detect_changes` bumps `detectedAt` to now exactly when the
classification is `new_spike` or `spike_increased`; in every other case
the market is returned unchanged, and in all cases every field other than
`detectedAt` is preserved. -/
theorem detectStep_detectedAt_spec (now : Nat) (prev : SpikeMap) (e : Market) :
    ((classifyChange (smLookup prev e.id) e.volumeSpike = some ChangeType.new_spike ∨
      classifyChange (smLookup prev e.id) e.volumeSpike = some ChangeType.spike_increased) →
        (detectStep now prev e).2.1 = { e with detectedAt := now }) ∧
    (¬ (classifyChange (smLookup prev e.id) e.volumeSpike = some ChangeType.new_spike ∨
        classifyChange (smLookup prev e.id) e.volumeSpike = some ChangeType.spike_increased) →
        (detectStep now prev e).2.1 = e) ∧
    (detectStep now prev e).2.1.id = e.id ∧
    (detectStep now prev e).2.1.title = e.title ∧
    (detectStep now prev e).2.1.probability = e.probability ∧
    (detectStep now prev e).2.1.volume24hr = e.volume24hr ∧
    (detectStep now prev e).2.1.locked = e.locked ∧
    (detectStep now prev e).2.1.volumeSpike = e.volumeSpike := by
  simp only [detectStep]
  split_ifs with h
  · exact ⟨fun _ => rfl, fun hn => absurd h hn, rfl, rfl, rfl, rfl, rfl, rfl⟩
  · exact ⟨fun hy => absurd hy h, fun _ => rfl, rfl, rfl, rfl, rfl, rfl, rfl⟩

/-- A sample entity used to instantiate the general theorems. -/
def sampleMarket (id : String) (spike : Option ℚ) : Market :=
  { id := id, title := "t", description := "", probability := 0,
    volume24hr := 0, volume1wk := 0, volume1mo := 0, volume1yr := 0,
    active := true, closed := false, archived := false, liquidityNum := 0,
    slug := "", detectedAt := 0, locked := false, volumeSpike := spike }

/-- Witness for C5: a fresh spike (`new_spike`) at `now = 7` bumps
`detectedAt` to `7`. -/
theorem detectStep_detectedAt_spec_witness :
    (detectStep 7 [] (sampleMarket "a" (some 2))).2.1 =
      { sampleMarket "a" (some 2) with detectedAt := 7 } :=
  (detectStep_detectedAt_spec 7 [] (sampleMarket "a" (some 2))).1 (Or.inl (by decide))

/-- Each loop iteration of `detect_changes` contributes at most one change,
and that change carries the id of the event being iterated: the emitted
ids form a sublist of the batch ids. -/
theorem detectChanges_ids_sublist (now : Nat) :
    ∀ (events : List Market) (prev : SpikeMap),
      ((detectChanges now prev events).1.map EventChange.eventId).Sublist
        (events.map Market.id) := by
  intro events
  induction events with
  | nil => intro prev; simp [detectChanges]
  | cons e rest ih =>
      intro prev
      simp only [detectChanges, List.map_append, List.map_cons]
      rcases hc : classifyChange (smLookup prev e.id) e.volumeSpike with _ | t
      · simp only [detectStep, hc, Option.map_none, Option.toList_none, List.map_nil,
          List.nil_append]
        exact List.Sublist.cons _ (ih _)
      · simp only [detectStep, hc, Option.map_some, Option.toList_some, List.map_cons,
          List.map_nil, List.singleton_append]
        exact List.Sublist.cons₂ _ (ih _)

/-- In a list of changes whose ids are pairwise distinct, at most one
change matches any given id. -/
theorem filter_eventId_length_le_one (l : List EventChange) (id : String)
    (h : (l.map EventChange.eventId).Nodup) :
    (l.filter (fun c => c.eventId == id)).length ≤ 1 := by
  induction l with
  | nil => simp
  | cons c cs ih =>
      simp only [List.map_cons, List.nodup_cons] at h
      by_cases hb : c.eventId == id
      · have hcs : cs.filter (fun x => x.eventId == id) = [] := by
          rw [List.filter_eq_nil_iff]
          intro x hx hxb
          apply h.1
          have hx1 : x.eventId = id := by simpa using hxb
          have hc1 : c.eventId = id := by simpa using hb
          rw [hc1, ← hx1]
          exact List.mem_map_of_mem EventChange.eventId hx
        simp [List.filter_cons, hb, hcs]
      · simpa [List.filter_cons, hb] using ih h.2

/-- C8 (amended): in one poll cycle, when the batch contains each entity id
at most once (no duplicate rows for one id), at most one ChangeEvent is
emitted per entity id.  (A batch repeating an id can emit more than one;
see the counterexample.) -/
theorem detectChanges_at_most_one_per_id (now : Nat) (prev : SpikeMap)
    (events : List Market) (hn : (events.map Market.id).Nodup) (id : String) :
    ((detectChanges now prev events).1.filter (fun c => c.eventId == id)).length ≤ 1 :=
  filter_eventId_length_le_one _ _ ((detectChanges_ids_sublist now events prev).nodup hn)

/-- Witness for C8's amended theorem: a two-entity batch with distinct ids
emits exactly one change per id (both are fresh spikes, giving one change
each — so the bound is met with equality on both ids). -/
theorem detectChanges_at_most_one_per_id_witness :
    (([sampleMarket "a" (some 2), sampleMarket "b" (some 2)].map Market.id).Nodup ∧
      ((detectChanges 0 [] [sampleMarket "a" (some 2), sampleMarket "b" (some 2)]).1.filter
        (fun c => c.eventId == "a")).length ≤ 1) :=
  ⟨by decide,
    detectChanges_at_most_one_per_id 0 [] _ (by decide) "a"⟩

/-- Counterexample to C8 as stated: a batch repeating entity id `"a"`
(first row with a spike, second without) emits two ChangeEvents for
`"a"` in a single cycle — the first iteration records `new_spike` and
updates the previous-spike map, so the second iteration records
`spike_removed`. -/
theorem detectChanges_duplicate_id_counterexample :
    (sampleMarket "a" (some 2)).id = (sampleMarket "a" none).id ∧
    ((detectChanges 0 [] [sampleMarket "a" (some 2), sampleMarket "a" none]).1.filter
      (fun c => c.eventId == "a")).length = 2 := by
  constructor
  · rfl
  · decide

/-- C4: the change log is a ring buffer of capacity 100: appending keeps
the length within the bound, is a plain append while below capacity, and
evicts exactly the oldest entry when the log is full. -/
theorem appendChange_spec (log : List EventChange) (c : EventChange)
    (h : log.length ≤ MAX_CHANGES) :
    (appendChange log c).length ≤ MAX_CHANGES ∧
    (log.length < MAX_CHANGES → appendChange log c = log ++ [c]) ∧
    (log.length = MAX_CHANGES → appendChange log c = log.tail ++ [c]) := by
  refine ⟨?_, ?_, ?_⟩
  · simp only [appendChange, List.length_drop]
    omega
  · intro hlt
    have h0 : log.length + 1 - MAX_CHANGES = 0 := by
      simp only [MAX_CHANGES] at hlt ⊢
      omega
    simp [appendChange, h0]
  · intro heq
    cases log with
    | nil => simp [MAX_CHANGES] at heq
    | cons a as =>
        simp only [List.length_cons] at heq
        have h1 : as.length + 1 + 1 - MAX_CHANGES = 1 := by
          simp only [MAX_CHANGES] at heq ⊢
          omega
        simp [appendChange, h1]

/-- A sample change record used to instantiate the log theorems. -/
def sampleChange (n : Nat) : EventChange :=
  { eventId := "a", eventTitle := "t", changeType := ChangeType.new_spike,
    timestamp := n, oldSpikeRatio := none, newSpikeRatio := some 2,
    volume24hr := 0, probability := 0 }

/-- Witness for C4: on a log of length 2, appending keeps the bound and is
a plain append. -/
theorem appendChange_spec_witness :
    (appendChange [sampleChange 0, sampleChange 1] (sampleChange 2)).length ≤ MAX_CHANGES ∧
    appendChange [sampleChange 0, sampleChange 1] (sampleChange 2) =
      [sampleChange 0, sampleChange 1, sampleChange 2] :=
  ⟨(appendChange_spec [sampleChange 0, sampleChange 1] (sampleChange 2) (by decide)).1,
    (appendChange_spec [sampleChange 0, sampleChange 1] (sampleChange 2) (by decide)).2.1
      (by decide)⟩

/-- A raw feed record with the given price field and neutral values in
every other field, used to instantiate the parsing theorems. -/
def sampleRaw (op : OutcomePrices) : RawMarket :=
  { id := "a", question := "q", description := "", outcomePrices := op,
    volume24hr := 0, volume1wk := 0, volume1mo := 0, volume1yr := 0,
    active := true, closed := false, archived := false, liquidityNum := 0,
    slug := "" }

/-- C1 (amended): the price-parse chain is total (modelled by returning an
`Option`, so it never raises out of `process_market`), but when both
parse stages fail the record is skipped (`none`) rather than defaulting;
only a price list that parses to the empty list yields a Market with
`probability = 0.5`. -/
theorem processMarket_price_fallback (now : Nat) (raw : RawMarket) :
    (parsePricesField raw.outcomePrices = ParsedPrices.fail →
      processMarket now raw = none) ∧
    (parsePricesField raw.outcomePrices = ParsedPrices.list [] →
      (processMarket now raw).map Market.probability = some (1/2)) := by
  constructor
  · intro h
    simp [processMarket, h, probabilityOf]
  · intro h
    simp only [processMarket, h, probabilityOf]
    rw [if_pos (by norm_num)]
    rfl

/-- Witness for C1's amended theorem: the record whose price string is
`"[]"` parses to the empty list and produces a Market with probability
`0.5`. -/
theorem processMarket_price_fallback_witness :
    parsePricesField (sampleRaw (OutcomePrices.str "[]".toList)).outcomePrices =
      ParsedPrices.list [] ∧
    (processMarket 0 (sampleRaw (OutcomePrices.str "[]".toList))).map Market.probability =
      some (1/2) :=
  ⟨by decide,
    (processMarket_price_fallback 0 (sampleRaw (OutcomePrices.str "[]".toList))).2 (by decide)⟩

/-- Counterexample to C1 as stated: for the record whose price string is
`"abc"`, JSON parsing fails and the comma-split fallback raises inside
`float()`, so `process_market` skips the record (`None`) instead of
producing a Market with probability `0.5`. -/
theorem processMarket_both_fail_counterexample :
    jsonLoads "abc".toList = none ∧
    commaParse "abc".toList = none ∧
    processMarket 0 (sampleRaw (OutcomePrices.str "abc".toList)) = none := by
  refine ⟨by decide, by decide, ?_⟩
  have h : parsePricesField (sampleRaw (OutcomePrices.str "abc".toList)).outcomePrices =
      ParsedPrices.fail := by decide
  exact (processMarket_price_fallback 0 _).1 h

/-! ### The state store and its operations -/

/-- Python dict assignment `m[k] = v` on an association list: replace the
entry in place when the key exists (keeping its position, as CPython
dicts do), otherwise append at the end. -/
def dictInsert : List (String × Market) → String → Market → List (String × Market)
  | [], k, v => [(k, v)]
  | p :: rest, k, v =>
      if p.1 == k then (k, v) :: rest else p :: dictInsert rest k v

theorem lookup_dictInsert_self (m : List (String × Market)) (k : String) (v : Market) :
    List.lookup k (dictInsert m k v) = some v := by
  induction m with
  | nil => simp [dictInsert, List.lookup]
  | cons p rest ih =>
      by_cases hpk : (p.1 == k) = true
      · simp [dictInsert, hpk, List.lookup]
      · have hpk' : (p.1 == k) = false := by simpa using hpk
        have hk : (k == p.1) = false := by
          simp only [beq_eq_false_iff_ne] at hpk' ⊢
          exact hpk'.symm
        simp [dictInsert, hpk', List.lookup, hk, ih]

theorem lookup_dictInsert_other (m : List (String × Market)) (k k' : String) (v : Market)
    (h : k' ≠ k) : List.lookup k' (dictInsert m k v) = List.lookup k' m := by
  have hk'k : (k' == k) = false := beq_eq_false_iff_ne.mpr h
  induction m with
  | nil => simp [dictInsert, List.lookup, hk'k]
  | cons p rest ih =>
      by_cases hpk : (p.1 == k) = true
      · have hk'p : (k' == p.1) = false := by
          simp only [beq_eq_false_iff_ne]
          simp only [beq_iff_eq] at hpk
          rw [hpk]
          exact h
        simp [dictInsert, hpk, List.lookup, hk'k, hk'p]
      · have hpk' : (p.1 == k) = false := by simpa using hpk
        by_cases hk'p : (k' == p.1) = true
        · simp [dictInsert, hpk', List.lookup, hk'p]
        · have hk'p' : (k' == p.1) = false := by simpa using hk'p
          simp [dictInsert, hpk', List.lookup, hk'p', ih]

/-- The engine's mutable state (`IngestionService.__init__`): the
markets map `self.events` (as an insertion-ordered association list, the
observable content of a CPython dict), the previous-spike map and the
bounded change log. -/
structure EngineState where
  events : List (String × Market)
  previousSpikes : SpikeMap
  changes : List EventChange
deriving DecidableEq, Repr

/-- `ingestion_service.events.get(event_id)`. -/
def getEvent (st : EngineState) (id : String) : Option Market :=
  List.lookup id st.events

/-- `list(self.events.values())`. -/
def getAll (st : EngineState) : List Market :=
  st.events.map Prod.snd

/-- `toggle_event_lock` (`routes.py`): `none` models the 404 on an
unknown id; on a known id the single entity's `locked` flag is flipped in
place. -/
def toggleLock (st : EngineState) (id : String) : Option EngineState :=
  match List.lookup id st.events with
  | none => none
  | some e =>
      some { st with events := dictInsert st.events id { e with locked := !e.locked } }

/-- The `self.events[event.id] = event` writes of one poll cycle. -/
def upsertEvents (m : List (String × Market)) (es : List Market) :
    List (String × Market) :=
  es.foldl (fun acc e => dictInsert acc e.id e) m

/-- `fetch_and_process_markets`: process the raw batch (skipping bad
records), run change detection over the processed subset, store the
updated markets and append the emitted changes to the bounded log. -/
def pollCycle (now : Nat) (raws : List RawMarket) (st : EngineState) : EngineState :=
  let processed := raws.filterMap (processMarket now)
  let r := detectChanges now st.previousSpikes processed
  { events := upsertEvents st.events r.2.1,
    previousSpikes := r.2.2,
    changes := r.1.foldl appendChange st.changes }

/-- C7: toggling the lock of a stored id flips exactly that market's
`locked` flag, leaves its other fields and all other entries and state
components unchanged, and a second toggle restores the original state
observably; an unknown id yields the not-found error and no new state. -/
theorem toggleLock_spec (st : EngineState) (id : String) :
    (∀ e, List.lookup id st.events = some e →
      ∃ st', toggleLock st id = some st' ∧
        List.lookup id st'.events = some { e with locked := !e.locked } ∧
        (∀ id', id' ≠ id → List.lookup id' st'.events = List.lookup id' st.events) ∧
        st'.previousSpikes = st.previousSpikes ∧
        st'.changes = st.changes ∧
        (∃ st'', toggleLock st' id = some st'' ∧
          ∀ id2, List.lookup id2 st''.events = List.lookup id2 st.events)) ∧
    (List.lookup id st.events = none → toggleLock st id = none) := by
  constructor
  · intro e he
    refine ⟨{ st with events := dictInsert st.events id { e with locked := !e.locked } },
      ?_, ?_, ?_, rfl, rfl, ?_⟩
    · simp only [toggleLock, he]
    · exact lookup_dictInsert_self st.events id { e with locked := !e.locked }
    · intro id' hne
      exact lookup_dictInsert_other st.events id id' _ hne
    · have he' : List.lookup id (dictInsert st.events id { e with locked := !e.locked }) =
          some { e with locked := !e.locked } :=
        lookup_dictInsert_self st.events id { e with locked := !e.locked }
      refine ⟨{ st with events := dictInsert (dictInsert st.events id { e with locked := !e.locked }) id { e with locked := !(!e.locked) } }, ?_, ?_⟩
      · simp only [toggleLock, he']
      · intro id2
        by_cases h2 : id2 = id
        · subst h2
          rw [lookup_dictInsert_self, he]
          simp
        · rw [lookup_dictInsert_other _ _ _ _ h2, lookup_dictInsert_other _ _ _ _ h2]
  · intro he
    simp [toggleLock, he]

/-- Witness for C7: on a one-entry store the toggle flips `locked` to
`true` and a second toggle restores the original lookup everywhere. -/
theorem toggleLock_spec_witness :
    ∃ st', toggleLock ⟨[("a", sampleMarket "a" none)], [], []⟩ "a" = some st' ∧
      List.lookup "a" st'.events = some { sampleMarket "a" none with locked := true } ∧
      (∃ st'', toggleLock st' "a" = some st'' ∧
        ∀ id2, List.lookup id2 st''.events =
          List.lookup id2 [("a", sampleMarket "a" none)]) := by
  obtain ⟨st', h1, h2, _, _, _, h6⟩ :=
    (toggleLock_spec ⟨[("a", sampleMarket "a" none)], [], []⟩ "a").1
      (sampleMarket "a" none) (by decide)
  exact ⟨st', h1, h2, h6⟩

/-- Membership preservation of one dict write, key level. -/
theorem lookup_dictInsert_isSome (m : List (String × Market)) (k k' : String) (v : Market)
    (h : (List.lookup k' m).isSome = true) :
    (List.lookup k' (dictInsert m k v)).isSome = true := by
  by_cases hk : k' = k
  · subst hk
    rw [lookup_dictInsert_self]
    rfl
  · rwa [lookup_dictInsert_other _ _ _ _ hk]

/-- Membership preservation across a whole batch of dict writes. -/
theorem lookup_upsertEvents_isSome (es : List Market) :
    ∀ (m : List (String × Market)) (k' : String),
      (List.lookup k' m).isSome = true →
      (List.lookup k' (upsertEvents m es)).isSome = true := by
  induction es with
  | nil => intro m k' h; exact h
  | cons e rest ih =>
      intro m k' h
      exact ih _ _ (lookup_dictInsert_isSome m e.id k' e h)

/-- A successful lookup's value is among the stored values. -/
theorem lookup_mem_values (k : String) (v : Market) :
    ∀ m : List (String × Market), List.lookup k m = some v → v ∈ m.map Prod.snd := by
  intro m
  induction m with
  | nil => simp [List.lookup]
  | cons p rest ih =>
      intro h
      by_cases hk : (k == p.1) = true
      · simp only [List.lookup, hk] at h
        simp only [List.map_cons, List.mem_cons]
        exact Or.inl (Option.some.inj h).symm
      · have hk' : (k == p.1) = false := by simpa using hk
        simp only [List.lookup, hk'] at h
        simp [ih h]

/-- C10: the markets map only grows.  An id stored before a poll cycle is
still stored after it (with its market among `get-all`'s values), and the
lock-toggle path also never removes entries. -/
theorem events_map_only_grows (st : EngineState) (now : Nat) (raws : List RawMarket)
    (id : String) (h : (getEvent st id).isSome = true) :
    (getEvent (pollCycle now raws st) id).isSome = true ∧
    (∀ m, getEvent (pollCycle now raws st) id = some m →
      m ∈ getAll (pollCycle now raws st)) ∧
    (∀ tid st', toggleLock st tid = some st' → (getEvent st' id).isSome = true) := by
  refine ⟨?_, ?_, ?_⟩
  · exact lookup_upsertEvents_isSome _ _ _ h
  · intro m hm
    exact lookup_mem_values _ _ _ hm
  · intro tid st' ht
    simp only [toggleLock] at ht
    rcases he : List.lookup tid st.events with _ | e
    · rw [he] at ht
      exact absurd ht (by simp)
    · rw [he] at ht
      have hst : st' = { st with
          events := dictInsert st.events tid { e with locked := !e.locked } } := by
        simpa using ht.symm
      subst hst
      exact lookup_dictInsert_isSome _ _ _ _ h

/-- Witness for C10: id `"a"` stored before an empty-batch cycle is still
found afterwards. -/
theorem events_map_only_grows_witness :
    (getEvent (pollCycle 1 [] ⟨[("a", sampleMarket "a" none)], [], []⟩) "a").isSome = true :=
  (events_map_only_grows ⟨[("a", sampleMarket "a" none)], [], []⟩ 1 [] "a" (by decide)).1

/-! ### Frontier ranking (`IngestionService.get_frontier_events`) -/

/-- The middle sort-key component `e.volumeSpike if e.volumeSpike else 0`
(`None` — and a zero ratio, which cannot occur — fall back to `0`). -/
def spikeOr0 (e : Market) : ℚ :=
  match e.volumeSpike with
  | some r => r
  | none => 0

/-- The composite Python sort key `(detectedAt, spikeOr0, volume24hr)`,
compared lexicographically as Python compares tuples. -/
def frontierKeyL (e : Market) : Lex (Nat × Lex (ℚ × ℚ)) :=
  toLex (e.detectedAt, toLex (spikeOr0 e, e.volume24hr))

/-- `a` sorts no later than `b` in the descending frontier order:
`a`'s composite key is at least `b`'s. -/
def frontierGe (a b : Market) : Prop :=
  frontierKeyL b ≤ frontierKeyL a

instance : DecidableRel frontierGe := fun a b =>
  inferInstanceAs (Decidable (frontierKeyL b ≤ frontierKeyL a))

instance : IsTotal Market frontierGe :=
  ⟨fun a b => le_total (frontierKeyL b) (frontierKeyL a)⟩

instance : IsTrans Market frontierGe :=
  ⟨fun _ _ _ hab hbc => le_trans hbc hab⟩

/-- `a` strictly precedes `b` in the frontier order (its key is strictly
greater). -/
def frontierPrecedes (a b : Market) : Prop :=
  frontierGe a b ∧ ¬ frontierGe b a

/-- `get_frontier_events`: optionally filter to spiking markets, sort by
the composite key descending (a stable sort, as Python's `list.sort`
is — `insertionSort` over the non-strict relation has the same stable
descending behaviour), truncate to `limit`. -/
def get_frontier_events (events : List Market) (limit : Nat) (spike_only : Bool) :
    List Market :=
  let evs := if spike_only then events.filter (fun e => e.volumeSpike.isSome) else events
  (evs.insertionSort frontierGe).take limit

/-- C6 (amended): the frontier is the stored markets (restricted to
spiking ones when `spikeOnly`), sorted descending by the composite key
`(detectedAt, spikeRatio-or-0, volume24hr)` and truncated to `limit`; the
key order totally orders entities with distinct composite keys — exactly
one precedes the other — while entities with equal keys (even with
distinct ids) are ordered by the stable sort's input order, not by the
key. -/
theorem get_frontier_events_spec (events : List Market) (limit : Nat) (spike_only : Bool) :
    (get_frontier_events events limit spike_only).length ≤ limit ∧
    List.Sorted frontierGe (get_frontier_events events limit spike_only) ∧
    (∀ e ∈ get_frontier_events events limit spike_only,
      e ∈ events ∧ (spike_only = true → e.volumeSpike.isSome = true)) ∧
    (∀ a b : Market, frontierKeyL a ≠ frontierKeyL b →
      (frontierPrecedes a b ↔ ¬ frontierPrecedes b a)) := by
  refine ⟨?_, ?_, ?_, ?_⟩
  · simp only [get_frontier_events, List.length_take]
    exact min_le_left _ _
  · exact List.Pairwise.sublist (List.take_sublist _ _)
      (List.sorted_insertionSort frontierGe _)
  · intro e he
    simp only [get_frontier_events] at he
    have he2 := List.mem_insertionSort frontierGe |>.mp (List.mem_of_mem_take he)
    cases spike_only with
    | false =>
        have h3 : e ∈ events := by simpa using he2
        exact ⟨h3, by simp⟩
    | true =>
        have h3 := List.mem_filter.mp (show e ∈ events.filter (fun x => x.volumeSpike.isSome)
          by simpa using he2)
        exact ⟨h3.1, fun _ => h3.2⟩
  · intro a b hne
    have hiff : ∀ x y : Market, frontierPrecedes x y ↔ frontierKeyL y < frontierKeyL x := by
      intro x y
      rw [frontierPrecedes, frontierGe, frontierGe, lt_iff_le_not_le]
    rw [hiff, hiff]
    constructor
    · intro hlt
      exact lt_asymm hlt
    · intro hnlt
      rcases lt_or_gt_of_ne hne with h | h
      · exact absurd h hnlt
      · exact h

/-- A sample entity with a chosen activity timestamp. -/
def sampleMarketAt (id : String) (t : Nat) : Market :=
  { sampleMarket id none with detectedAt := t }

/-- Witness for C6: with distinct composite keys (`detectedAt` 1 vs 0),
exactly one of the two entities precedes the other. -/
theorem get_frontier_events_spec_witness :
    frontierKeyL (sampleMarketAt "a" 1) ≠ frontierKeyL (sampleMarketAt "b" 0) ∧
    (frontierPrecedes (sampleMarketAt "a" 1) (sampleMarketAt "b" 0) ↔
      ¬ frontierPrecedes (sampleMarketAt "b" 0) (sampleMarketAt "a" 1)) := by
  have hne : frontierKeyL (sampleMarketAt "a" 1) ≠ frontierKeyL (sampleMarketAt "b" 0) := by
    intro h
    have := congrArg (fun k => (ofLex k).1) h
    simp [frontierKeyL, sampleMarketAt, sampleMarket] at this
  exact ⟨hne, ((get_frontier_events_spec [] 0 false).2.2.2
    (sampleMarketAt "a" 1) (sampleMarketAt "b" 0) hne)⟩

/-- Counterexample to C6's totality claim as stated: two entities with
distinct ids but identical composite keys; under the descending key order
neither strictly precedes the other, so the key is not a total order on
distinct entities — their relative order comes from the stable sort's
input order. -/
theorem frontier_tie_counterexample :
    (sampleMarket "a" none).id ≠ (sampleMarket "b" none).id ∧
    ¬ frontierPrecedes (sampleMarket "a" none) (sampleMarket "b" none) ∧
    ¬ frontierPrecedes (sampleMarket "b" none) (sampleMarket "a" none) := by
  have hk : frontierKeyL (sampleMarket "a" none) = frontierKeyL (sampleMarket "b" none) := rfl
  refine ⟨by decide, ?_, ?_⟩
  · rintro ⟨-, hnge⟩
    exact hnge (le_of_eq hk)
  · rintro ⟨-, hnge⟩
    exact hnge (le_of_eq hk.symm)

end Poliberg
